import Mathlib

/-!
Shallow embedding of `src/cfgmap/src/cfgmap.rs` (the `cmap` repository): the
`CfgValue` tagged union, the `CfgMap` path-addressed configuration map, and
the `Condition`/`Checkable` predicate layer.

Embedding conventions:
- Rust `String`/`&str` keys are embedded as `List Char`; the path separator is
  the character `'/'`.
- `HashMap<String, CfgValue>` is embedded as an association list; `mapGet` and
  `mapInsert` embed `HashMap::get` and `HashMap::insert`.
- Methods taking `&mut self` are embedded by explicit state passing: they
  return the updated map next to the source function's return value, and the
  mutable-reference chain produced by `CfgMap::get_mut` is rendered by
  `CfgMap.get_mut_upd`, which resolves a path exactly as `get_mut` does and
  writes the updated value back along the chain.
- The source of the crate's `conditions` module is not in the repository
  snapshot (only `mod conditions;` and the `Checkable` impls of `cfgmap.rs`
  are), so `Condition` and `Condition.execute` are modelled from the spec.
-/

/-- The type contained within `CfgValue::Int` (Rust `isize`). None of the
embedded operations performs integer arithmetic, so it is embedded as `Int`. -/
abbrev _Int := Int

/-- The type contained within `CfgValue::Float` (Rust `f64`), carried as an
uninterpreted 64-bit pattern: no embedded operation computes with floats. -/
structure _Float where
  bits : Nat
deriving DecidableEq

/-- The type contained within `CfgValue::Str` (Rust `String`), embedded as a
list of characters. -/
abbrev _Str := List Char

/-- The type contained within `CfgValue::Bool`. -/
abbrev _Bool := Bool

/-- Embeds the free function `split_once`: splits `in_string` at the first
occurrence of `pat` into `(first, some second)`, or returns
`(in_string, none)` when `pat` does not occur in `in_string`. -/
def split_once (in_string : List Char) (pat : Char) : List Char × Option (List Char) :=
  match in_string with
  | [] => ([], none)
  | c :: rest =>
    if c = pat then ([], some rest)
    else (c :: (split_once rest pat).1, (split_once rest pat).2)

/-- Embeds the free function `rsplit_once`: splits `in_string` at the last
occurrence of `pat` into `(some second, first)` where `first` is the part
after the last `pat` and `second` the part before it, or returns
`(none, in_string)` when `pat` does not occur in `in_string`. -/
def rsplit_once (in_string : List Char) (pat : Char) : Option (List Char) × List Char :=
  match in_string with
  | [] => (none, [])
  | c :: rest =>
    match (rsplit_once rest pat).1 with
    | some p => (some (c :: p), (rsplit_once rest pat).2)
    | none => if c = pat then (some [], rest) else (none, c :: rest)

mutual
/-- Embeds the enum `CfgValue`: a value within a `CfgMap`. -/
inductive CfgValue where
  | Int : _Int → CfgValue
  | Float : _Float → CfgValue
  | Str : _Str → CfgValue
  | Bool : _Bool → CfgValue
  | Map : CfgMap → CfgValue
  | List : List CfgValue → CfgValue

/-- Embeds the struct `CfgMap`: the field `internal_map` (a
`HashMap<String, CfgValue>`, embedded as an association list) together with
the field `default`, a path to the default subobject. -/
inductive CfgMap where
  | mk : List (_Str × CfgValue) → _Str → CfgMap
end

/-- The `internal_map` field of a `CfgMap`. -/
def CfgMap.internal_map : CfgMap → List (_Str × CfgValue)
  | .mk m _ => m

/-- The `default` field of a `CfgMap`. -/
def CfgMap.default : CfgMap → _Str
  | .mk _ d => d

/-- Embeds `HashMap::get` on the association-list embedding of
`internal_map`. -/
def mapGet : List (_Str × CfgValue) → _Str → Option CfgValue
  | [], _ => none
  | (k2, v) :: rest, k => if k2 = k then some v else mapGet rest k

/-- Embeds `HashMap::insert` on the association-list embedding: returns the
updated list together with the value previously stored at the key, if any. -/
def mapInsert : List (_Str × CfgValue) → _Str → CfgValue →
    List (_Str × CfgValue) × Option CfgValue
  | [], k, v => ([(k, v)], none)
  | (k2, v2) :: rest, k, v =>
    if k2 = k then ((k, v) :: rest, some v2)
    else ((k2, v2) :: (mapInsert rest k v).1, (mapInsert rest k v).2)

/-- Embeds `CfgValue::as_map` (generated by the `as_type!` macro). -/
def CfgValue.as_map : CfgValue → Option CfgMap
  | .Map x => some x
  | _ => none

/-- Embeds `CfgValue::as_map_mut` (generated by the `as_mut_type!` macro); as
a pure read it exposes the same contents as `as_map`. -/
def CfgValue.as_map_mut : CfgValue → Option CfgMap
  | .Map x => some x
  | _ => none

/-- Embeds `CfgValue::is_int` (generated by the `is_type!` macro). -/
def CfgValue.is_int : CfgValue → _Bool
  | .Int _ => true
  | _ => false

/-- Embeds `CfgValue::is_float` (generated by the `is_type!` macro). -/
def CfgValue.is_float : CfgValue → _Bool
  | .Float _ => true
  | _ => false

/-- Embeds `CfgValue::is_str` (generated by the `is_type!` macro). -/
def CfgValue.is_str : CfgValue → _Bool
  | .Str _ => true
  | _ => false

/-- Embeds `CfgValue::is_map` (generated by the `is_type!` macro). -/
def CfgValue.is_map : CfgValue → _Bool
  | .Map _ => true
  | _ => false

/-- Embeds `CfgValue::is_list` (generated by the `is_type!` macro). -/
def CfgValue.is_list : CfgValue → _Bool
  | .List _ => true
  | _ => false

/-- The names of the predicate methods generated by the `is_type!` macro
invocations in `impl CfgValue` (src/cfgmap/src/cfgmap.rs, lines 196-200),
in source order. -/
def is_type_invocations : List String :=
  ["is_int", "is_float", "is_str", "is_map", "is_list"]

/-- Embeds `CfgMap::new`: an empty map whose `default` field is the empty
string. -/
def CfgMap.new : CfgMap := CfgMap.mk [] []

/-- Embeds `CfgMap::with_default`: an empty map whose `default` field is
`path` followed by one separator character. -/
def CfgMap.with_default (path : _Str) : CfgMap := CfgMap.mk [] (path ++ ['/'])

/-- Embeds `CfgMap::get`: splits the key at the first separator; with no
separator it is a direct `internal_map` lookup, otherwise it looks up the
head, descends through `as_map` and recurses on the tail. -/
def CfgMap.get (self : CfgMap) (key : _Str) : Option CfgValue :=
  match hsp : split_once key '/' with
  | (_, none) => mapGet self.internal_map key
  | (h, some t) =>
    match mapGet self.internal_map h with
    | some v =>
      match v.as_map with
      | some m2 => m2.get t
      | none => none
    | none => none
termination_by key.length
decreasing_by
  have hlt : ∀ (s f2 t2 : List Char), split_once s '/' = (f2, some t2) →
      t2.length < s.length := by
    intro s
    induction s with
    | nil => intro f2 t2 hh; simp [split_once] at hh
    | cons c rest ih =>
      intro f2 t2 hh
      simp only [split_once] at hh
      by_cases hc : c = '/'
      · rw [if_pos hc] at hh
        injection hh with h1 h2
        injection h2 with h2
        subst h2
        simp only [List.length_cons]
        omega
      · rw [if_neg hc] at hh
        injection hh with h1 h2
        have hpair : split_once rest '/' = ((split_once rest '/').1, some t2) := by
          rw [← h2]
        have := ih _ _ hpair
        simp only [List.length_cons]
        omega
  exact hlt key h t hsp

/-- Embeds `CfgMap::get_mut` (as a pure read of the referenced value): the
same resolution algorithm as `get`, descending through `as_map_mut`. -/
def CfgMap.get_mut (self : CfgMap) (key : _Str) : Option CfgValue :=
  match hsp : split_once key '/' with
  | (_, none) => mapGet self.internal_map key
  | (h, some t) =>
    match mapGet self.internal_map h with
    | some v =>
      match v.as_map_mut with
      | some m2 => m2.get_mut t
      | none => none
    | none => none
termination_by key.length
decreasing_by
  have hlt : ∀ (s f2 t2 : List Char), split_once s '/' = (f2, some t2) →
      t2.length < s.length := by
    intro s
    induction s with
    | nil => intro f2 t2 hh; simp [split_once] at hh
    | cons c rest ih =>
      intro f2 t2 hh
      simp only [split_once] at hh
      by_cases hc : c = '/'
      · rw [if_pos hc] at hh
        injection hh with h1 h2
        injection h2 with h2
        subst h2
        simp only [List.length_cons]
        omega
      · rw [if_neg hc] at hh
        injection hh with h1 h2
        have hpair : split_once rest '/' = ((split_once rest '/').1, some t2) := by
          rw [← h2]
        have := ih _ _ hpair
        simp only [List.length_cons]
        omega
  exact hlt key h t hsp

/-- Explicit state-passing rendering of the mutable-reference chain obtained
from `CfgMap::get_mut`: resolves `key` exactly as `get_mut` does and, where
`get_mut` returns `Some`, applies `f` to the referenced value, writing the
updated value back along the chain of enclosing maps. Returns the updated map
together with the second component produced by `f`, or `none` exactly when
`get_mut` returns `None`. -/
def CfgMap.get_mut_upd {α : Type} (self : CfgMap) (key : _Str)
    (f : CfgValue → CfgValue × α) : Option (CfgMap × α) :=
  match hsp : split_once key '/' with
  | (_, none) =>
    match mapGet self.internal_map key with
    | some v =>
      some (CfgMap.mk (mapInsert self.internal_map key (f v).1).1 self.default, (f v).2)
    | none => none
  | (h, some t) =>
    match mapGet self.internal_map h with
    | some (CfgValue.Map m2) =>
      match m2.get_mut_upd t f with
      | some (m3, a) =>
        some (CfgMap.mk (mapInsert self.internal_map h (CfgValue.Map m3)).1 self.default, a)
      | none => none
    | some _ => none
    | none => none
termination_by key.length
decreasing_by
  have hlt : ∀ (s f2 t2 : List Char), split_once s '/' = (f2, some t2) →
      t2.length < s.length := by
    intro s
    induction s with
    | nil => intro f2 t2 hh; simp [split_once] at hh
    | cons c rest ih =>
      intro f2 t2 hh
      simp only [split_once] at hh
      by_cases hc : c = '/'
      · rw [if_pos hc] at hh
        injection hh with h1 h2
        injection h2 with h2
        subst h2
        simp only [List.length_cons]
        omega
      · rw [if_neg hc] at hh
        injection hh with h1 h2
        have hpair : split_once rest '/' = ((split_once rest '/').1, some t2) := by
          rw [← h2]
        have := ih _ _ hpair
        simp only [List.length_cons]
        omega
  exact hlt key h t hsp

/-- Embeds `CfgMap::add`: splits the key at the last separator; with no
separator it inserts directly into `internal_map` (returning the previous
value); otherwise the parent path must resolve through `get_mut` to a
`CfgValue::Map` (the `check_that(Condition::IsMap)` guard followed by
`as_map_mut().unwrap()` in the source), into which the final key is added
recursively; otherwise the call fails with `Err(())` and the map is not
modified. The updated map is returned next to the source's
`Result<Option<CfgValue>, ()>`. -/
def CfgMap.add (self : CfgMap) (key : _Str) (value : CfgValue) :
    CfgMap × Except Unit (Option CfgValue) :=
  match hpk : rsplit_once key '/' with
  | (none, k) =>
    (CfgMap.mk (mapInsert self.internal_map k value).1 self.default,
      Except.ok (mapInsert self.internal_map k value).2)
  | (some path, k) =>
    match self.get_mut_upd path (fun subtree =>
      match subtree with
      | CfgValue.Map m2 =>
        match m2.add k value with
        | (m3, r) => (CfgValue.Map m3, r)
      | w => (w, Except.error ())) with
    | some (self2, r) => (self2, r)
    | none => (self, Except.error ())
termination_by key.length
decreasing_by
  have hlt : ∀ (s p2 k2 : List Char), rsplit_once s '/' = (some p2, k2) →
      k2.length < s.length := by
    intro s
    induction s with
    | nil => intro p2 k2 hh; simp [rsplit_once] at hh
    | cons c rest ih =>
      intro p2 k2 hh
      simp only [rsplit_once] at hh
      cases hm : (rsplit_once rest '/').1 with
      | some p3 =>
        rw [hm] at hh
        injection hh with h1 h2
        subst h2
        have hpair : rsplit_once rest '/' = (some p3, (rsplit_once rest '/').2) := by
          rw [← hm]
        have := ih _ _ hpair
        simp only [List.length_cons]
        omega
      | none =>
        rw [hm] at hh
        by_cases hc : c = '/'
        · rw [if_pos hc] at hh
          injection hh with h1 h2
          subst h2
          simp only [List.length_cons]
          omega
        · rw [if_neg hc] at hh
          injection hh with h1 h2
          exact Option.noConfusion h1
  exact hlt key path k hpk

/-- Embeds `CfgMap::get_option`: first attempts the category path
`category ++ "/" ++ option`, then falls back to the default path
`self.default ++ option`. -/
def CfgMap.get_option (self : CfgMap) (category opt : _Str) : Option CfgValue :=
  let fullkey := category ++ '/' :: opt
  let dflt := self.default ++ opt
  match self.get fullkey with
  | some v => some v
  | none => self.get dflt

/-- Embeds `CfgMap::update_option`: the same dual-path resolution as
`get_option` through `get_mut`, replacing the resolved value with the new
value (the source parameter `to`, here `newval`)
(the source's `mem::replace`) and returning the replaced value; `none` and
no modification if neither path resolves. -/
def CfgMap.update_option (self : CfgMap) (category opt : _Str) (newval : CfgValue) :
    CfgMap × Option CfgValue :=
  let fullkey := category ++ '/' :: opt
  let dflt := self.default ++ opt
  match self.get_mut_upd fullkey (fun x => (newval, x)) with
  | some (self2, old) => (self2, some old)
  | none =>
    match self.get_mut_upd dflt (fun x => (newval, x)) with
    | some (self2, old) => (self2, some old)
    | none => (self, none)

/-- Modelled from the spec: the predicate tree `Condition` of the crate's
`conditions` module, whose source file is missing from the repository
snapshot (only `mod conditions;` and the `Checkable` impls are in
`cfgmap.rs`). Leaves are the type checks and exact-value checks named by the
spec; internal nodes are the And/Or/Not combinators. -/
inductive Condition where
  | IsInt : Condition
  | IsFloat : Condition
  | IsStr : Condition
  | IsBool : Condition
  | IsMap : Condition
  | IsList : Condition
  | IsExactlyInt : _Int → Condition
  | IsExactlyFloat : _Float → Condition
  | IsExactlyStr : _Str → Condition
  | IsExactlyBool : _Bool → Condition
  | And : Condition → Condition → Condition
  | Or : Condition → Condition → Condition
  | Not : Condition → Condition

/-- Modelled from the spec: evaluation of a `Condition` against a concrete
`CfgValue`, collapsed to `Bool` (the composition `c.execute(self).to_bool()`
used by `Checkable for CfgValue`). Type-check leaves test the variant tag,
exact-value leaves test the variant tag and payload, and And/Or/Not combine
the children's results. -/
def Condition.execute : Condition → CfgValue → Bool
  | .IsInt, v => match v with | CfgValue.Int _ => true | _ => false
  | .IsFloat, v => match v with | CfgValue.Float _ => true | _ => false
  | .IsStr, v => match v with | CfgValue.Str _ => true | _ => false
  | .IsBool, v => match v with | CfgValue.Bool _ => true | _ => false
  | .IsMap, v => match v with | CfgValue.Map _ => true | _ => false
  | .IsList, v => match v with | CfgValue.List _ => true | _ => false
  | .IsExactlyInt n, v => match v with | CfgValue.Int m => decide (m = n) | _ => false
  | .IsExactlyFloat x, v => match v with | CfgValue.Float y => decide (y = x) | _ => false
  | .IsExactlyStr s, v => match v with | CfgValue.Str s2 => decide (s2 = s) | _ => false
  | .IsExactlyBool b, v => match v with | CfgValue.Bool b2 => decide (b2 = b) | _ => false
  | .And a b, v => a.execute v && b.execute v
  | .Or a b, v => a.execute v || b.execute v
  | .Not a, v => ! a.execute v

/-- Embeds `impl Checkable for CfgValue`: `check_that` runs the condition
against `self`, collapsing the condition result to `Bool` (see
`Condition.execute`). -/
def CfgValue.check_that (self : CfgValue) (c : Condition) : _Bool :=
  c.execute self

/-- Embeds `impl Checkable for Option<&CfgValue>` (and the identical impl for
`Option<&mut CfgValue>`): `map_or(false, ...)` evaluates the condition
against the referenced value when present and yields `false` when the
optional is absent. -/
def Option.check_that (self : Option CfgValue) (condition : Condition) : Bool :=
  match self with
  | some val => val.check_that condition
  | none => false

@[simp]
theorem CfgMap.internal_map_mk (m : List (_Str × CfgValue)) (d : _Str) :
    (CfgMap.mk m d).internal_map = m := rfl

@[simp]
theorem CfgMap.default_mk (m : List (_Str × CfgValue)) (d : _Str) :
    (CfgMap.mk m d).default = d := rfl

theorem CfgMap.mk_eta (m : CfgMap) : CfgMap.mk m.internal_map m.default = m := by
  cases m
  rfl

theorem split_once_none_mem (s : List Char) (pat : Char) (f : List Char)
    (h : split_once s pat = (f, none)) : f = s ∧ pat ∉ s := by
  induction s generalizing f with
  | nil =>
    simp only [split_once] at h
    injection h with h1 h2
    subst h1
    exact ⟨rfl, List.not_mem_nil pat⟩
  | cons c rest ih =>
    simp only [split_once] at h
    by_cases hc : c = pat
    · rw [if_pos hc] at h
      injection h with h1 h2
      exact Option.noConfusion h2
    · rw [if_neg hc] at h
      injection h with h1 h2
      have hpair : split_once rest pat = ((split_once rest pat).1, none) := by
        rw [← h2]
      obtain ⟨e1, e2⟩ := ih _ hpair
      subst h1
      constructor
      · rw [e1]
      · intro hmem
        rcases List.mem_cons.1 hmem with hh | hh
        · exact hc hh.symm
        · exact e2 hh

theorem split_once_some_eq (s : List Char) (pat : Char) (f t : List Char)
    (h : split_once s pat = (f, some t)) : s = f ++ pat :: t ∧ pat ∉ f := by
  induction s generalizing f t with
  | nil => simp [split_once] at h
  | cons c rest ih =>
    simp only [split_once] at h
    by_cases hc : c = pat
    · rw [if_pos hc] at h
      injection h with h1 h2
      injection h2 with h2
      subst h1
      subst h2
      subst hc
      exact ⟨rfl, List.not_mem_nil c⟩
    · rw [if_neg hc] at h
      injection h with h1 h2
      have hpair : split_once rest pat = ((split_once rest pat).1, some t) := by
        rw [← h2]
      obtain ⟨e1, e2⟩ := ih _ _ hpair
      subst h1
      constructor
      · rw [List.cons_append]
        rw [← e1]
      · intro hmem
        rcases List.mem_cons.1 hmem with hh | hh
        · exact hc hh.symm
        · exact e2 hh

theorem split_once_of_not_mem (s : List Char) (pat : Char) (h : pat ∉ s) :
    split_once s pat = (s, none) := by
  induction s with
  | nil => rfl
  | cons c rest ih =>
    have hc : ¬ c = pat := fun hh => h (List.mem_cons.2 (Or.inl hh.symm))
    have hrest : pat ∉ rest := fun hh => h (List.mem_cons.2 (Or.inr hh))
    simp only [split_once, if_neg hc, ih hrest]

theorem split_once_append (f : List Char) (pat : Char) (t : List Char) (h : pat ∉ f) :
    split_once (f ++ pat :: t) pat = (f, some t) := by
  induction f with
  | nil => simp [split_once]
  | cons c f2 ih =>
    have hc : ¬ c = pat := fun hh => h (List.mem_cons.2 (Or.inl hh.symm))
    have hf2 : pat ∉ f2 := fun hh => h (List.mem_cons.2 (Or.inr hh))
    simp only [List.cons_append, split_once, if_neg hc, List.append_eq, ih hf2]

theorem rsplit_once_none_mem (s : List Char) (pat : Char) (k : List Char)
    (h : rsplit_once s pat = (none, k)) : k = s ∧ pat ∉ s := by
  induction s generalizing k with
  | nil =>
    simp only [rsplit_once] at h
    injection h with h1 h2
    subst h2
    exact ⟨rfl, List.not_mem_nil pat⟩
  | cons c rest ih =>
    simp only [rsplit_once] at h
    cases hm : (rsplit_once rest pat).1 with
    | some p =>
      rw [hm] at h
      injection h with h1 h2
      exact Option.noConfusion h1
    | none =>
      rw [hm] at h
      by_cases hc : c = pat
      · rw [if_pos hc] at h
        injection h with h1 h2
        exact Option.noConfusion h1
      · rw [if_neg hc] at h
        injection h with h1 h2
        have hpair : rsplit_once rest pat = (none, (rsplit_once rest pat).2) := by
          rw [← hm]
        obtain ⟨e1, e2⟩ := ih _ hpair
        subst h2
        constructor
        · rfl
        · intro hmem
          rcases List.mem_cons.1 hmem with hh | hh
          · exact hc hh.symm
          · exact e2 hh

theorem rsplit_once_some_eq (s : List Char) (pat : Char) (p k : List Char)
    (h : rsplit_once s pat = (some p, k)) : s = p ++ pat :: k ∧ pat ∉ k := by
  induction s generalizing p k with
  | nil => simp [rsplit_once] at h
  | cons c rest ih =>
    simp only [rsplit_once] at h
    cases hm : (rsplit_once rest pat).1 with
    | some p2 =>
      rw [hm] at h
      injection h with h1 h2
      injection h1 with h1
      have hpair : rsplit_once rest pat = (some p2, (rsplit_once rest pat).2) := by
        rw [← hm]
      obtain ⟨e1, e2⟩ := ih _ _ hpair
      subst h1
      subst h2
      constructor
      · rw [List.cons_append]
        rw [← e1]
      · exact e2
    | none =>
      rw [hm] at h
      by_cases hc : c = pat
      · rw [if_pos hc] at h
        injection h with h1 h2
        injection h1 with h1
        have hpair : rsplit_once rest pat = (none, (rsplit_once rest pat).2) := by
          rw [← hm]
        obtain ⟨e1, e2⟩ := rsplit_once_none_mem rest pat _ hpair
        subst h1
        subst h2
        subst hc
        exact ⟨rfl, e2⟩
      · rw [if_neg hc] at h
        injection h with h1 h2
        exact Option.noConfusion h1

theorem rsplit_once_of_not_mem (s : List Char) (pat : Char) (h : pat ∉ s) :
    rsplit_once s pat = (none, s) := by
  induction s with
  | nil => rfl
  | cons c rest ih =>
    have hc : ¬ c = pat := fun hh => h (List.mem_cons.2 (Or.inl hh.symm))
    have hrest : pat ∉ rest := fun hh => h (List.mem_cons.2 (Or.inr hh))
    simp only [rsplit_once, ih hrest, if_neg hc]

theorem rsplit_once_append (p : List Char) (pat : Char) (k : List Char) (h : pat ∉ k) :
    rsplit_once (p ++ pat :: k) pat = (some p, k) := by
  induction p with
  | nil =>
    simp [rsplit_once, rsplit_once_of_not_mem k pat h]
  | cons c p2 ih =>
    simp only [List.cons_append, rsplit_once, List.append_eq, ih]

theorem mapGet_mapInsert_self (l : List (_Str × CfgValue)) (k : _Str) (v : CfgValue) :
    mapGet (mapInsert l k v).1 k = some v := by
  induction l with
  | nil => simp [mapInsert, mapGet]
  | cons e rest ih =>
    obtain ⟨k2, v2⟩ := e
    by_cases hk : k2 = k
    · simp [mapInsert, if_pos hk, mapGet]
    · simp only [mapInsert, if_neg hk, mapGet, ih]

theorem mapInsert_snd (l : List (_Str × CfgValue)) (k : _Str) (v : CfgValue) :
    (mapInsert l k v).2 = mapGet l k := by
  induction l with
  | nil => rfl
  | cons e rest ih =>
    obtain ⟨k2, v2⟩ := e
    by_cases hk : k2 = k
    · simp [mapInsert, if_pos hk, mapGet]
    · simp [mapInsert, if_neg hk, mapGet, ih]

theorem mapInsert_of_get_eq (l : List (_Str × CfgValue)) (k : _Str) (w : CfgValue)
    (h : mapGet l k = some w) : (mapInsert l k w).1 = l := by
  induction l with
  | nil => simp [mapGet] at h
  | cons e rest ih =>
    obtain ⟨k2, v2⟩ := e
    by_cases hk : k2 = k
    · simp only [mapGet, if_pos hk] at h
      injection h with h
      simp [mapInsert, if_pos hk, hk, h]
    · simp only [mapGet, if_neg hk] at h
      simp [mapInsert, if_neg hk, ih h]

theorem CfgMap.get_no_sep (m : CfgMap) (key : _Str) (hk : '/' ∉ key) :
    m.get key = mapGet m.internal_map key := by
  rw [CfgMap.get.eq_def]
  split
  · rfl
  · rename_i h t hsp
    obtain ⟨he, _⟩ := split_once_some_eq key '/' h t hsp
    exact absurd (he ▸ List.mem_append.2 (Or.inr (List.mem_cons_self '/' t))) hk

theorem CfgMap.get_sep (m : CfgMap) (h t : _Str) (hh : '/' ∉ h) :
    m.get (h ++ '/' :: t) =
      match mapGet m.internal_map h with
      | some (CfgValue.Map sub) => sub.get t
      | _ => none := by
  rw [CfgMap.get.eq_def]
  split
  · rename_i f hsp
    obtain ⟨_, hnm⟩ := split_once_none_mem _ '/' f hsp
    exact absurd (List.mem_append.2 (Or.inr (List.mem_cons_self '/' t))) hnm
  · rename_i h2 t2 hsp
    rw [split_once_append h '/' t hh] at hsp
    injection hsp with e1 e2
    injection e2 with e2
    subst e1
    subst e2
    cases hmg : mapGet m.internal_map h with
    | none => rfl
    | some v =>
      cases v with
      | Map sub => rfl
      | Int n => rfl
      | Float x => rfl
      | Str s => rfl
      | Bool b => rfl
      | List l => rfl

theorem CfgMap.get_mut_no_sep (m : CfgMap) (key : _Str) (hk : '/' ∉ key) :
    m.get_mut key = mapGet m.internal_map key := by
  rw [CfgMap.get_mut.eq_def]
  split
  · rfl
  · rename_i h t hsp
    obtain ⟨he, _⟩ := split_once_some_eq key '/' h t hsp
    exact absurd (he ▸ List.mem_append.2 (Or.inr (List.mem_cons_self '/' t))) hk

theorem CfgMap.get_mut_sep (m : CfgMap) (h t : _Str) (hh : '/' ∉ h) :
    m.get_mut (h ++ '/' :: t) =
      match mapGet m.internal_map h with
      | some (CfgValue.Map sub) => sub.get_mut t
      | _ => none := by
  rw [CfgMap.get_mut.eq_def]
  split
  · rename_i f hsp
    obtain ⟨_, hnm⟩ := split_once_none_mem _ '/' f hsp
    exact absurd (List.mem_append.2 (Or.inr (List.mem_cons_self '/' t))) hnm
  · rename_i h2 t2 hsp
    rw [split_once_append h '/' t hh] at hsp
    injection hsp with e1 e2
    injection e2 with e2
    subst e1
    subst e2
    cases hmg : mapGet m.internal_map h with
    | none => rfl
    | some v =>
      cases v with
      | Map sub => rfl
      | Int n => rfl
      | Float x => rfl
      | Str s => rfl
      | Bool b => rfl
      | List l => rfl

theorem CfgMap.upd_no_sep {α : Type} (m : CfgMap) (key : _Str)
    (f : CfgValue → CfgValue × α) (hk : '/' ∉ key) :
    m.get_mut_upd key f =
      match mapGet m.internal_map key with
      | some v =>
        some (CfgMap.mk (mapInsert m.internal_map key (f v).1).1 m.default, (f v).2)
      | none => none := by
  rw [CfgMap.get_mut_upd.eq_def]
  split
  · rfl
  · rename_i h t hsp
    obtain ⟨he, _⟩ := split_once_some_eq key '/' h t hsp
    exact absurd (he ▸ List.mem_append.2 (Or.inr (List.mem_cons_self '/' t))) hk

theorem CfgMap.upd_sep {α : Type} (m : CfgMap) (h t : _Str)
    (f : CfgValue → CfgValue × α) (hh : '/' ∉ h) :
    m.get_mut_upd (h ++ '/' :: t) f =
      match mapGet m.internal_map h with
      | some (CfgValue.Map sub) =>
        (match sub.get_mut_upd t f with
          | some (sub2, a) =>
            some (CfgMap.mk (mapInsert m.internal_map h (CfgValue.Map sub2)).1 m.default, a)
          | none => none)
      | some _ => none
      | none => none := by
  rw [CfgMap.get_mut_upd.eq_def]
  split
  · rename_i f2 hsp
    obtain ⟨_, hnm⟩ := split_once_none_mem _ '/' f2 hsp
    exact absurd (List.mem_append.2 (Or.inr (List.mem_cons_self '/' t))) hnm
  · rename_i h2 t2 hsp
    rw [split_once_append h '/' t hh] at hsp
    injection hsp with e1 e2
    injection e2 with e2
    subst e1
    subst e2
    cases hmg : mapGet m.internal_map h with
    | none => rfl
    | some v =>
      cases v with
      | Map sub => rfl
      | Int n => rfl
      | Float x => rfl
      | Str s => rfl
      | Bool b => rfl
      | List l => rfl

theorem CfgMap.add_no_sep (m : CfgMap) (key : _Str) (v : CfgValue) (hk : '/' ∉ key) :
    m.add key v =
      (CfgMap.mk (mapInsert m.internal_map key v).1 m.default,
        Except.ok (mapGet m.internal_map key)) := by
  rw [CfgMap.add.eq_def]
  split
  · rename_i k hpk
    obtain ⟨e1, _⟩ := rsplit_once_none_mem key '/' k hpk
    subst e1
    rw [mapInsert_snd]
  · rename_i p k hpk
    obtain ⟨he, _⟩ := rsplit_once_some_eq key '/' p k hpk
    exact absurd (he ▸ List.mem_append.2 (Or.inr (List.mem_cons_self '/' k))) hk

theorem CfgMap.add_sep (m : CfgMap) (p k : _Str) (v : CfgValue) (hk : '/' ∉ k) :
    m.add (p ++ '/' :: k) v =
      match m.get_mut_upd p (fun subtree =>
        match subtree with
        | CfgValue.Map m2 =>
          match m2.add k v with
          | (m3, r) => (CfgValue.Map m3, r)
        | w => (w, Except.error ())) with
      | some (self2, r) => (self2, r)
      | none => (m, Except.error ()) := by
  rw [CfgMap.add.eq_def]
  split
  · rename_i k2 hpk
    obtain ⟨_, hnm⟩ := rsplit_once_none_mem _ '/' k2 hpk
    exact absurd (List.mem_append.2 (Or.inr (List.mem_cons_self '/' k))) hnm
  · rename_i p2 k2 hpk
    rw [rsplit_once_append p '/' k hk] at hpk
    injection hpk with e1 e2
    injection e1 with e1
    subst e1
    subst e2
    rfl

theorem CfgMap.get_mut_eq_get (key : _Str) (m : CfgMap) : m.get_mut key = m.get key := by
  rcases hsp : split_once key '/' with ⟨f, sec⟩
  cases sec with
  | none =>
    obtain ⟨_, hnm⟩ := split_once_none_mem key '/' f hsp
    rw [CfgMap.get_mut_no_sep m key hnm, CfgMap.get_no_sep m key hnm]
  | some t =>
    obtain ⟨he, hnf⟩ := split_once_some_eq key '/' f t hsp
    subst he
    rw [CfgMap.get_mut_sep m f t hnf, CfgMap.get_sep m f t hnf]
    cases hmg : mapGet m.internal_map f with
    | none => rfl
    | some v =>
      cases v with
      | Map sub => exact CfgMap.get_mut_eq_get t sub
      | Int n => rfl
      | Float x => rfl
      | Str s => rfl
      | Bool b => rfl
      | List l => rfl
termination_by key.length
decreasing_by
  simp only [he, List.length_append, List.length_cons]
  omega

theorem CfgMap.get_append (par rest : _Str) (m : CfgMap) :
    m.get (par ++ '/' :: rest) =
      match m.get par with
      | some (CfgValue.Map sub) => sub.get rest
      | _ => none := by
  rcases hsp : split_once par '/' with ⟨f, sec⟩
  cases sec with
  | none =>
    obtain ⟨hf, hnm⟩ := split_once_none_mem par '/' f hsp
    rw [CfgMap.get_sep m par rest hnm, CfgMap.get_no_sep m par hnm]
  | some t =>
    obtain ⟨he, hnf⟩ := split_once_some_eq par '/' f t hsp
    subst he
    rw [List.append_assoc, List.cons_append]
    rw [CfgMap.get_sep m f (t ++ '/' :: rest) hnf, CfgMap.get_sep m f t hnf]
    cases hmg : mapGet m.internal_map f with
    | none => rfl
    | some v =>
      cases v with
      | Map sub => exact CfgMap.get_append t rest sub
      | Int n => rfl
      | Float x => rfl
      | Str s => rfl
      | Bool b => rfl
      | List l => rfl
termination_by par.length
decreasing_by
  simp only [he, List.length_append, List.length_cons]
  omega

theorem CfgMap.get_mut_upd_none {α : Type} (key : _Str) (m : CfgMap)
    (f : CfgValue → CfgValue × α) (hw : m.get_mut key = none) :
    m.get_mut_upd key f = none := by
  rcases hsp : split_once key '/' with ⟨g, sec⟩
  cases sec with
  | none =>
    obtain ⟨_, hnm⟩ := split_once_none_mem key '/' g hsp
    rw [CfgMap.get_mut_no_sep m key hnm] at hw
    rw [CfgMap.upd_no_sep m key f hnm, hw]
  | some t =>
    obtain ⟨he, hnf⟩ := split_once_some_eq key '/' g t hsp
    subst he
    rw [CfgMap.get_mut_sep m g t hnf] at hw
    rw [CfgMap.upd_sep m g t f hnf]
    cases hmg : mapGet m.internal_map g with
    | none => rfl
    | some v =>
      rw [hmg] at hw
      cases v with
      | Map sub =>
        have hw2 : sub.get_mut t = none := hw
        have ihe := CfgMap.get_mut_upd_none t sub f hw2
        simp only [ihe]
      | Int n => rfl
      | Float x => rfl
      | Str s => rfl
      | Bool b => rfl
      | List l => rfl
termination_by key.length
decreasing_by
  simp only [he, List.length_append, List.length_cons]
  omega

theorem CfgMap.get_mut_upd_some {α : Type} (key : _Str) (m : CfgMap)
    (f : CfgValue → CfgValue × α) (w : CfgValue) (hw : m.get_mut key = some w) :
    ∃ m2, m.get_mut_upd key f = some (m2, (f w).2) ∧ m2.get_mut key = some (f w).1 := by
  rcases hsp : split_once key '/' with ⟨g, sec⟩
  cases sec with
  | none =>
    obtain ⟨_, hnm⟩ := split_once_none_mem key '/' g hsp
    rw [CfgMap.get_mut_no_sep m key hnm] at hw
    refine ⟨CfgMap.mk (mapInsert m.internal_map key (f w).1).1 m.default, ?_, ?_⟩
    · rw [CfgMap.upd_no_sep m key f hnm, hw]
    · rw [CfgMap.get_mut_no_sep _ key hnm]
      simp only [CfgMap.internal_map_mk]
      exact mapGet_mapInsert_self m.internal_map key (f w).1
  | some t =>
    obtain ⟨he, hnf⟩ := split_once_some_eq key '/' g t hsp
    subst he
    rw [CfgMap.get_mut_sep m g t hnf] at hw
    cases hmg : mapGet m.internal_map g with
    | none =>
      rw [hmg] at hw
      exact Option.noConfusion hw
    | some v =>
      rw [hmg] at hw
      cases v with
      | Map sub =>
        have hw2 : sub.get_mut t = some w := hw
        obtain ⟨sub2, hupd, hget⟩ := CfgMap.get_mut_upd_some t sub f w hw2
        refine ⟨CfgMap.mk (mapInsert m.internal_map g (CfgValue.Map sub2)).1 m.default, ?_, ?_⟩
        · rw [CfgMap.upd_sep m g t f hnf, hmg]
          simp only [hupd]
        · rw [CfgMap.get_mut_sep _ g t hnf]
          simp only [CfgMap.internal_map_mk]
          rw [mapGet_mapInsert_self]
          exact hget
      | Int n => exact Option.noConfusion hw
      | Float x => exact Option.noConfusion hw
      | Str s => exact Option.noConfusion hw
      | Bool b => exact Option.noConfusion hw
      | List l => exact Option.noConfusion hw
termination_by key.length
decreasing_by
  simp only [he, List.length_append, List.length_cons]
  omega

theorem CfgMap.get_mut_upd_id {α : Type} (key : _Str) (m : CfgMap)
    (f : CfgValue → CfgValue × α) (w : CfgValue) (hw : m.get_mut key = some w)
    (hf : (f w).1 = w) :
    m.get_mut_upd key f = some (m, (f w).2) := by
  rcases hsp : split_once key '/' with ⟨g, sec⟩
  cases sec with
  | none =>
    obtain ⟨_, hnm⟩ := split_once_none_mem key '/' g hsp
    rw [CfgMap.get_mut_no_sep m key hnm] at hw
    rw [CfgMap.upd_no_sep m key f hnm, hw]
    have hins : (mapInsert m.internal_map key (f w).1).1 = m.internal_map := by
      rw [hf]
      exact mapInsert_of_get_eq _ _ _ hw
    simp only [hins, CfgMap.mk_eta]
  | some t =>
    obtain ⟨he, hnf⟩ := split_once_some_eq key '/' g t hsp
    subst he
    rw [CfgMap.get_mut_sep m g t hnf] at hw
    cases hmg : mapGet m.internal_map g with
    | none =>
      rw [hmg] at hw
      exact Option.noConfusion hw
    | some v =>
      rw [hmg] at hw
      cases v with
      | Map sub =>
        have hw2 : sub.get_mut t = some w := hw
        have ihe := CfgMap.get_mut_upd_id t sub f w hw2 hf
        rw [CfgMap.upd_sep m g t f hnf, hmg]
        simp only [ihe, mapInsert_of_get_eq _ _ _ hmg, CfgMap.mk_eta]
      | Int n => exact Option.noConfusion hw
      | Float x => exact Option.noConfusion hw
      | Str s => exact Option.noConfusion hw
      | Bool b => exact Option.noConfusion hw
      | List l => exact Option.noConfusion hw
termination_by key.length
decreasing_by
  simp only [he, List.length_append, List.length_cons]
  omega

/-- C1: `CfgMap::get` splits the path at the first separator into
(head, rest); with no separator it performs a direct key lookup; otherwise it
looks up the head and recurses on the rest only when the head is present and
is a `Map`-variant value; if the head is missing, the head is not a `Map`, or
the recursive lookup misses, the result is `none`. -/
theorem get_path_resolution (m : CfgMap) (key h t : _Str) :
    (split_once key '/' = (h, none) → h = key ∧ '/' ∉ key ∧
      m.get key = mapGet m.internal_map key) ∧
    (split_once key '/' = (h, some t) → key = h ++ '/' :: t ∧ '/' ∉ h ∧
      m.get key =
        match mapGet m.internal_map h with
        | some (CfgValue.Map sub) => sub.get t
        | _ => none) := by
  constructor
  · intro hsp
    obtain ⟨hf, hnm⟩ := split_once_none_mem key '/' h hsp
    exact ⟨hf, hnm, CfgMap.get_no_sep m key hnm⟩
  · intro hsp
    obtain ⟨he, hnf⟩ := split_once_some_eq key '/' h t hsp
    refine ⟨he, hnf, ?_⟩
    rw [he]
    exact CfgMap.get_sep m h t hnf

/-- Witness for C1 at the concrete map with the nested entry a/b = 7 and the
path "a/b". -/
theorem get_path_resolution_witness :
    (['a', '/', 'b'] : _Str) = ['a'] ++ '/' :: ['b'] ∧ '/' ∉ (['a'] : _Str) ∧
      (CfgMap.mk [(['a'], CfgValue.Map (CfgMap.mk [(['b'], CfgValue.Int 7)] []))] []).get
          ['a', '/', 'b'] =
        match mapGet (CfgMap.mk [(['a'],
            CfgValue.Map (CfgMap.mk [(['b'], CfgValue.Int 7)] []))] []).internal_map ['a'] with
        | some (CfgValue.Map sub) => sub.get ['b']
        | _ => none :=
  (get_path_resolution _ ['a', '/', 'b'] ['a'] ['b']).2 (by decide)

/-- C4: `get_option` returns the category-path value when that lookup
succeeds, otherwise the default-path value; it is `none` exactly when both
lookups miss; the category-specific value always takes priority. -/
theorem get_option_priority (m : CfgMap) (cat opt : _Str) :
    (∀ v, m.get (cat ++ '/' :: opt) = some v → m.get_option cat opt = some v) ∧
    (m.get (cat ++ '/' :: opt) = none →
      m.get_option cat opt = m.get (m.default ++ opt)) ∧
    (m.get_option cat opt = none ↔
      m.get (cat ++ '/' :: opt) = none ∧ m.get (m.default ++ opt) = none) := by
  simp only [CfgMap.get_option]
  cases hc : m.get (cat ++ '/' :: opt) with
  | some v =>
    refine ⟨?_, ?_, ?_, ?_⟩
    · intro v2 hv2
      injection hv2 with hv2
      rw [hv2]
    · intro hn
      exact Option.noConfusion hn
    · intro hnone
      exact Option.noConfusion hnone
    · rintro ⟨h1, h2⟩
      exact Option.noConfusion h1
  | none =>
    refine ⟨?_, ?_, ?_, ?_⟩
    · intro v2 hv2
      exact Option.noConfusion hv2
    · intro _
      rfl
    · intro hh
      exact ⟨rfl, hh⟩
    · rintro ⟨h1, h2⟩
      exact h2

/-- Witness for C4 at a concrete map containing a/x = 1: the category path
takes priority. -/
theorem get_option_priority_witness :
    (CfgMap.mk [(['a'], CfgValue.Map (CfgMap.mk [(['x'], CfgValue.Int 1)] []))] []).get_option
      ['a'] ['x'] = some (CfgValue.Int 1) := by
  apply (get_option_priority
    (CfgMap.mk [(['a'], CfgValue.Map (CfgMap.mk [(['x'], CfgValue.Int 1)] []))] [])
    ['a'] ['x']).1 (CfgValue.Int 1)
  rw [CfgMap.get_sep _ ['a'] ['x'] (by decide)]
  show (CfgMap.mk [(['x'], CfgValue.Int 1)] []).get ['x'] = some (CfgValue.Int 1)
  rw [CfgMap.get_no_sep _ ['x'] (by decide)]
  rfl

/-- C6: `with_default` stores `path` followed by exactly one trailing
separator, for every input path; `new` stores the empty default, so fallback
lookups resolve the option name at the map's own root. -/
theorem default_path_spec :
    (∀ path : _Str, (CfgMap.with_default path).default = path ++ ['/']) ∧
    CfgMap.new.default = [] ∧
    (∀ (m : CfgMap) (cat opt : _Str), m.default = [] →
      m.get_option cat opt =
        match m.get (cat ++ '/' :: opt) with
        | some v => some v
        | none => m.get opt) := by
  refine ⟨fun path => rfl, rfl, fun m cat opt hd => ?_⟩
  simp only [CfgMap.get_option, hd, List.nil_append]

/-- Witness for C6 at the root-defaulted empty map. -/
theorem default_path_witness :
    CfgMap.new.get_option ['c'] ['o'] =
      match CfgMap.new.get (['c'] ++ '/' :: ['o']) with
      | some v => some v
      | none => CfgMap.new.get ['o'] :=
  default_path_spec.2.2 CfgMap.new ['c'] ['o'] rfl

/-- C8: evaluating any condition through `check_that` against an absent
optional value yields `false`, including a negation of a condition that holds
on every concrete value. -/
theorem check_that_absent :
    (∀ c : Condition, (none : Option CfgValue).check_that c = false) ∧
    (∀ c : Condition, (∀ v : CfgValue, v.check_that c = true) →
      (none : Option CfgValue).check_that (Condition.Not c) = false) :=
  ⟨fun _ => rfl, fun _ _ => rfl⟩

/-- Witness for C8: the negation of the always-true condition
IsInt or not IsInt still fails on the absent optional. -/
theorem check_that_absent_witness :
    (none : Option CfgValue).check_that
      (Condition.Not (Condition.Or Condition.IsInt (Condition.Not Condition.IsInt))) =
      false :=
  check_that_absent.2 (Condition.Or Condition.IsInt (Condition.Not Condition.IsInt))
    (fun v => by cases v <;> rfl)

/-- C9 counterexample: the claim asserts one is-this-variant query per
variant, for each of Int, Float, Str, Bool, Map and List; the `is_type!`
invocations in the source generate queries for only five of the six variants
and none for Bool. -/
theorem is_type_queries_counterexample :
    ¬ ∀ n ∈ (["is_int", "is_float", "is_str", "is_bool", "is_map", "is_list"] :
      List String), n ∈ is_type_invocations := by
  decide

/-- C9 (amended): `CfgValue` exposes a boolean type predicate for each of the
Int, Float, Str, Map and List variants (none is generated for Bool), and each
such predicate returns `true` exactly when the value is that variant. -/
theorem is_type_queries (v : CfgValue) :
    is_type_invocations = ["is_int", "is_float", "is_str", "is_map", "is_list"] ∧
    (v.is_int = true ↔ ∃ n, v = CfgValue.Int n) ∧
    (v.is_float = true ↔ ∃ x, v = CfgValue.Float x) ∧
    (v.is_str = true ↔ ∃ s, v = CfgValue.Str s) ∧
    (v.is_map = true ↔ ∃ m, v = CfgValue.Map m) ∧
    (v.is_list = true ↔ ∃ l, v = CfgValue.List l) := by
  refine ⟨rfl, ?_, ?_, ?_, ?_, ?_⟩ <;>
    cases v <;>
      simp [CfgValue.is_int, CfgValue.is_float, CfgValue.is_str, CfgValue.is_map,
        CfgValue.is_list]

/-- C2: for every map, path and value, if the path has no separator, or the
parent part of the path (everything before the last separator) resolves to a
`Map`-variant value, then `add` succeeds and `get` on the same path returns
the inserted value. -/
theorem add_get_roundtrip (m : CfgMap) (p : _Str) (v : CfgValue)
    (hpre : ∀ par k, rsplit_once p '/' = (some par, k) →
      ∃ sub, m.get_mut par = some (CfgValue.Map sub)) :
    ∃ m2 old, m.add p v = (m2, Except.ok old) ∧ m2.get p = some v := by
  rcases hpk : rsplit_once p '/' with ⟨pp, k⟩
  cases pp with
  | none =>
    obtain ⟨e1, hnm⟩ := rsplit_once_none_mem p '/' k hpk
    subst e1
    refine ⟨_, _, CfgMap.add_no_sep m k v hnm, ?_⟩
    rw [CfgMap.get_no_sep _ k hnm]
    simp only [CfgMap.internal_map_mk]
    exact mapGet_mapInsert_self m.internal_map k v
  | some par =>
    obtain ⟨he, hnk⟩ := rsplit_once_some_eq p '/' par k hpk
    obtain ⟨sub, hsub⟩ := hpre par k hpk
    subst he
    have hinner := CfgMap.add_no_sep sub k v hnk
    obtain ⟨m2, hupd, hget⟩ := CfgMap.get_mut_upd_some par m
      (fun subtree =>
        match subtree with
        | CfgValue.Map mm =>
          match mm.add k v with
          | (m3, r) => (CfgValue.Map m3, r)
        | w => (w, Except.error ())) (CfgValue.Map sub) hsub
    refine ⟨m2, mapGet sub.internal_map k, ?_, ?_⟩
    · rw [CfgMap.add_sep m par k v hnk, hupd]
      show (m2, (sub.add k v).2) = (m2, Except.ok (mapGet sub.internal_map k))
      rw [hinner]
    · rw [CfgMap.get_append par k m2, ← CfgMap.get_mut_eq_get par m2]
      have hget2 : m2.get_mut par = some (CfgValue.Map (sub.add k v).1) := hget
      rw [hget2]
      show (sub.add k v).1.get k = some v
      rw [hinner]
      show (CfgMap.mk (mapInsert sub.internal_map k v).1 sub.default).get k = some v
      rw [CfgMap.get_no_sep _ k hnk]
      simp only [CfgMap.internal_map_mk]
      exact mapGet_mapInsert_self sub.internal_map k v

/-- Witness for C2: a root-level insert into the empty map reads back. -/
theorem add_get_roundtrip_witness :
    ∃ m2 old, CfgMap.new.add ['k'] (CfgValue.Int 5) = (m2, Except.ok old) ∧
      m2.get ['k'] = some (CfgValue.Int 5) := by
  apply add_get_roundtrip CfgMap.new ['k'] (CfgValue.Int 5)
  intro par k h
  rw [rsplit_once_of_not_mem ['k'] '/' (by decide)] at h
  injection h with h1 h2
  exact Option.noConfusion h1

/-- C3: `add` returns `Err` exactly when the path contains a separator and
the parent part does not resolve (via the mutable lookup `get_mut`) to a
`Map`-variant value, and then the map is unchanged; with no separator the
insertion always succeeds at that level, returning the previous value at the
final key (some value or none); intermediate maps are never auto-created. -/
theorem add_error_spec (m : CfgMap) (p : _Str) (v : CfgValue) :
    ((m.add p v).2 = Except.error () ↔
      ∃ par k, rsplit_once p '/' = (some par, k) ∧
        ∀ sub, m.get_mut par ≠ some (CfgValue.Map sub)) ∧
    ((m.add p v).2 = Except.error () → (m.add p v).1 = m) ∧
    (∀ k, rsplit_once p '/' = (none, k) →
      m.add p v = (CfgMap.mk (mapInsert m.internal_map k v).1 m.default,
        Except.ok (mapGet m.internal_map k))) := by
  rcases hpk : rsplit_once p '/' with ⟨pp, k⟩
  cases pp with
  | none =>
    obtain ⟨e1, hnm⟩ := rsplit_once_none_mem p '/' k hpk
    subst e1
    have hadd := CfgMap.add_no_sep m k v hnm
    refine ⟨?_, ?_, ?_⟩
    · rw [hadd]
      constructor
      · intro hh
        exact Except.noConfusion hh
      · rintro ⟨par, k2, hr, _⟩
        injection hr with h1 h2
        exact Option.noConfusion h1
    · intro hh
      rw [hadd] at hh
      exact Except.noConfusion hh
    · intro k2 hr
      injection hr with h1 h2
      subst h2
      exact hadd
  | some par =>
    obtain ⟨he, hnk⟩ := rsplit_once_some_eq p '/' par k hpk
    subst he
    have hsep := CfgMap.add_sep m par k v hnk
    cases hres : m.get_mut par with
    | none =>
      have hnone := CfgMap.get_mut_upd_none par m
        (fun subtree =>
          match subtree with
          | CfgValue.Map m2 =>
            match m2.add k v with
            | (m3, r) => (CfgValue.Map m3, r)
          | w => (w, Except.error ())) hres
      have hav : m.add (par ++ '/' :: k) v = (m, Except.error ()) := by
        rw [hsep, hnone]
      refine ⟨?_, ?_, ?_⟩
      · rw [hav]
        constructor
        · intro _
          exact ⟨par, k, rfl, fun sub hcon => by
            rw [hres] at hcon
            exact Option.noConfusion hcon⟩
        · intro _
          rfl
      · intro _
        rw [hav]
      · intro k2 hr
        injection hr with h1 h2
        exact Option.noConfusion h1
    | some w =>
      by_cases hmap : ∃ sub, w = CfgValue.Map sub
      · obtain ⟨sub, rfl⟩ := hmap
        have hinner := CfgMap.add_no_sep sub k v hnk
        obtain ⟨m2, hupd, hget⟩ := CfgMap.get_mut_upd_some par m
          (fun subtree =>
            match subtree with
            | CfgValue.Map mm =>
              match mm.add k v with
              | (m3, r) => (CfgValue.Map m3, r)
            | w2 => (w2, Except.error ())) (CfgValue.Map sub) hres
        have hav : m.add (par ++ '/' :: k) v =
            (m2, Except.ok (mapGet sub.internal_map k)) := by
          rw [hsep, hupd]
          show (m2, (sub.add k v).2) = (m2, Except.ok (mapGet sub.internal_map k))
          rw [hinner]
        refine ⟨?_, ?_, ?_⟩
        · rw [hav]
          constructor
          · intro hh
            exact Except.noConfusion hh
          · rintro ⟨par2, k2, hr, hnomap⟩
            injection hr with h1 h2
            injection h1 with h1
            subst h1
            exact absurd hres (hnomap sub)
        · intro hh
          rw [hav] at hh
          exact Except.noConfusion hh
        · intro k2 hr
          injection hr with h1 h2
          exact Option.noConfusion h1
      · have hfid : ((fun subtree =>
            match subtree with
            | CfgValue.Map m2 =>
              match m2.add k v with
              | (m3, r) => (CfgValue.Map m3, r)
            | w2 => (w2, Except.error ())) w).1 = w := by
          cases w with
          | Map sub => exact absurd ⟨sub, rfl⟩ hmap
          | Int n => rfl
          | Float x => rfl
          | Str s => rfl
          | Bool b => rfl
          | List l => rfl
        have hferr : ((fun subtree =>
            match subtree with
            | CfgValue.Map m2 =>
              match m2.add k v with
              | (m3, r) => (CfgValue.Map m3, r)
            | w2 => (w2, Except.error ())) w).2 = Except.error () := by
          cases w with
          | Map sub => exact absurd ⟨sub, rfl⟩ hmap
          | Int n => rfl
          | Float x => rfl
          | Str s => rfl
          | Bool b => rfl
          | List l => rfl
        have hid := CfgMap.get_mut_upd_id par m
          (fun subtree =>
            match subtree with
            | CfgValue.Map m2 =>
              match m2.add k v with
              | (m3, r) => (CfgValue.Map m3, r)
            | w2 => (w2, Except.error ())) w hres hfid
        have hav : m.add (par ++ '/' :: k) v = (m, Except.error ()) := by
          rw [hsep, hid, hferr]
        refine ⟨?_, ?_, ?_⟩
        · rw [hav]
          constructor
          · intro _
            exact ⟨par, k, rfl, fun sub hcon => by
              rw [hres] at hcon
              injection hcon with hcon
              exact absurd ⟨sub, hcon⟩ hmap⟩
          · intro _
            rfl
        · intro _
          rw [hav]
        · intro k2 hr
          injection hr with h1 h2
          exact Option.noConfusion h1

/-- Witness for C3: a separator-free insert into the empty map takes the
direct-insert branch. -/
theorem add_error_spec_witness :
    CfgMap.new.add ['k'] (CfgValue.Int 5) =
      (CfgMap.mk (mapInsert CfgMap.new.internal_map ['k'] (CfgValue.Int 5)).1
        CfgMap.new.default,
        Except.ok (mapGet CfgMap.new.internal_map ['k'])) :=
  (add_error_spec CfgMap.new ['k'] (CfgValue.Int 5)).2.2 ['k'] (by decide)

/-- C5: `update_option` resolves the category path first and the default path
second, replaces the value in place at the first path that resolves (the new
value is then readable there) and returns the replaced old value; if neither
path resolves it returns `none` and the map is left unchanged. -/
theorem update_option_spec (m : CfgMap) (cat opt : _Str) (nv : CfgValue) :
    (∀ old, m.get_mut (cat ++ '/' :: opt) = some old →
      (m.update_option cat opt nv).2 = some old ∧
      (m.update_option cat opt nv).1.get_mut (cat ++ '/' :: opt) = some nv) ∧
    (m.get_mut (cat ++ '/' :: opt) = none →
      ∀ old, m.get_mut (m.default ++ opt) = some old →
        (m.update_option cat opt nv).2 = some old ∧
        (m.update_option cat opt nv).1.get_mut (m.default ++ opt) = some nv) ∧
    (m.get_mut (cat ++ '/' :: opt) = none → m.get_mut (m.default ++ opt) = none →
      m.update_option cat opt nv = (m, none)) := by
  refine ⟨?_, ?_, ?_⟩
  · intro old hold
    obtain ⟨m2, hupd, hget⟩ := CfgMap.get_mut_upd_some (cat ++ '/' :: opt) m
      (fun x => (nv, x)) old hold
    have hu : m.update_option cat opt nv = (m2, some old) := by
      simp only [CfgMap.update_option]
      rw [hupd]
    exact ⟨by rw [hu], by rw [hu]; exact hget⟩
  · intro hnone old hold
    have hn1 := CfgMap.get_mut_upd_none (cat ++ '/' :: opt) m (fun x => (nv, x)) hnone
    obtain ⟨m2, hupd, hget⟩ := CfgMap.get_mut_upd_some (m.default ++ opt) m
      (fun x => (nv, x)) old hold
    have hu : m.update_option cat opt nv = (m2, some old) := by
      simp only [CfgMap.update_option]
      rw [hn1, hupd]
    exact ⟨by rw [hu], by rw [hu]; exact hget⟩
  · intro h1 h2
    have hn1 := CfgMap.get_mut_upd_none (cat ++ '/' :: opt) m (fun x => (nv, x)) h1
    have hn2 := CfgMap.get_mut_upd_none (m.default ++ opt) m (fun x => (nv, x)) h2
    simp only [CfgMap.update_option]
    rw [hn1, hn2]

/-- Witness for C5 at a concrete map with default prefix "d/" holding
d/x = 3: updating option x of the missing category c replaces the default
value and returns the old one. -/
theorem update_option_spec_witness :
    ((CfgMap.mk [(['d'], CfgValue.Map (CfgMap.mk [(['x'], CfgValue.Int 3)] []))]
        ['d', '/']).update_option ['c'] ['x'] (CfgValue.Int 9)).2 =
      some (CfgValue.Int 3) ∧
    ((CfgMap.mk [(['d'], CfgValue.Map (CfgMap.mk [(['x'], CfgValue.Int 3)] []))]
        ['d', '/']).update_option ['c'] ['x'] (CfgValue.Int 9)).1.get_mut
      ((CfgMap.mk [(['d'], CfgValue.Map (CfgMap.mk [(['x'], CfgValue.Int 3)] []))]
        ['d', '/']).default ++ ['x']) = some (CfgValue.Int 9) := by
  apply (update_option_spec
    (CfgMap.mk [(['d'], CfgValue.Map (CfgMap.mk [(['x'], CfgValue.Int 3)] []))] ['d', '/'])
    ['c'] ['x'] (CfgValue.Int 9)).2.1
  · rw [CfgMap.get_mut_sep _ ['c'] ['x'] (by decide)]
    rfl
  · show (CfgMap.mk [(['d'], CfgValue.Map (CfgMap.mk [(['x'], CfgValue.Int 3)] []))]
      ['d', '/']).get_mut (['d'] ++ '/' :: ['x']) = some (CfgValue.Int 3)
    rw [CfgMap.get_mut_sep _ ['d'] ['x'] (by decide)]
    show (CfgMap.mk [(['x'], CfgValue.Int 3)] []).get_mut ['x'] = some (CfgValue.Int 3)
    rw [CfgMap.get_mut_no_sep _ ['x'] (by decide)]
    rfl

/-- C10: path resolution performs no normalization: `get` of the empty path
is a direct lookup of the empty-string key; a doubled separator makes `get`
look up the empty-string key in the intermediate map; `add` on a path ending
in a separator inserts the value under the empty-string key of the parent
map. -/
theorem path_no_normalization (m : CfgMap) :
    m.get [] = mapGet m.internal_map [] ∧
    (∀ a b : _Str, m.get (a ++ '/' :: '/' :: b) =
      match m.get a with
      | some (CfgValue.Map sub) =>
        (match mapGet sub.internal_map [] with
          | some (CfgValue.Map sub2) => sub2.get b
          | _ => none)
      | _ => none) ∧
    (∀ (par : _Str) (v : CfgValue) (sub : CfgMap),
      m.get_mut par = some (CfgValue.Map sub) →
      ∃ m2 sub2,
        m.add (par ++ ['/']) v = (m2, Except.ok (mapGet sub.internal_map [])) ∧
        m2.get_mut par = some (CfgValue.Map sub2) ∧
        mapGet sub2.internal_map [] = some v) := by
  refine ⟨CfgMap.get_no_sep m [] (by simp), ?_, ?_⟩
  · intro a b
    rw [CfgMap.get_append a ('/' :: b) m]
    cases hga : m.get a with
    | none => rfl
    | some v =>
      cases v with
      | Map sub =>
        have h2 := CfgMap.get_append [] b sub
        rw [List.nil_append] at h2
        show sub.get ('/' :: b) =
          match mapGet sub.internal_map [] with
          | some (CfgValue.Map sub2) => sub2.get b
          | _ => none
        rw [h2, CfgMap.get_no_sep sub [] (by simp)]
      | Int n => rfl
      | Float x => rfl
      | Str s => rfl
      | Bool b2 => rfl
      | List l => rfl
  · intro par v sub hsub
    have hinner := CfgMap.add_no_sep sub [] v (by simp)
    obtain ⟨m2, hupd, hget⟩ := CfgMap.get_mut_upd_some par m
      (fun subtree =>
        match subtree with
        | CfgValue.Map mm =>
          match mm.add [] v with
          | (m3, r) => (CfgValue.Map m3, r)
        | w => (w, Except.error ())) (CfgValue.Map sub) hsub
    refine ⟨m2, CfgMap.mk (mapInsert sub.internal_map [] v).1 sub.default, ?_, ?_, ?_⟩
    · rw [CfgMap.add_sep m par [] v (by simp), hupd]
      show (m2, (sub.add [] v).2) = (m2, Except.ok (mapGet sub.internal_map []))
      rw [hinner]
    · have hget2 : m2.get_mut par = some (CfgValue.Map (sub.add [] v).1) := hget
      rw [hget2, hinner]
    · simp only [CfgMap.internal_map_mk]
      exact mapGet_mapInsert_self sub.internal_map [] v

/-- Witness for C10: adding at the path a-then-separator inserts under the
empty-string key of the submap at a. -/
theorem path_no_normalization_witness :
    ∃ m2 sub2,
      (CfgMap.mk [(['a'], CfgValue.Map CfgMap.new)] []).add (['a'] ++ ['/'])
          (CfgValue.Int 1) =
        (m2, Except.ok (mapGet CfgMap.new.internal_map [])) ∧
      m2.get_mut ['a'] = some (CfgValue.Map sub2) ∧
      mapGet sub2.internal_map [] = some (CfgValue.Int 1) := by
  apply (path_no_normalization (CfgMap.mk [(['a'], CfgValue.Map CfgMap.new)] [])).2.2
    ['a'] (CfgValue.Int 1) CfgMap.new
  rw [CfgMap.get_mut_no_sep _ ['a'] (by decide)]
  rfl

/-- Witness for C9 (amended) at the concrete value Int 7. -/
theorem is_type_queries_witness : (CfgValue.Int 7).is_int = true :=
  ((is_type_queries (CfgValue.Int 7)).2.1).2 ⟨7, rfl⟩
